import Mathlib

/-!
Shallow embedding of the semantic chunking pipeline of
`functions/FileLayoutParsingOther/__init__.py` (element normalization with
section tracking, token-budgeted overlapping window building, chunk emission)
and of the query-time chunk-family resolver, together with theorems settling
the frozen claims about them.

The tokenizer (`utilities.token_count`) and the HTML library (BeautifulSoup)
are external collaborators of the repository; the embedding is parameterized
by them: `tc : String → Nat` is an arbitrary token counter and `SoupModel`
carries the three observable operations the code uses.
-/

/-- Python `str.strip()` with the default whitespace argument, implemented
structurally over the character list. -/
def pyStrip (s : String) : String :=
  String.mk (((s.data.dropWhile Char.isWhitespace).reverse.dropWhile Char.isWhitespace).reverse)

/-- Python substring test `c in text` for a single character. -/
def containsChar (s : String) (c : Char) : Bool := s.data.contains c

/-- First line of a string followed by `strip()`, as in
`display_text.splitlines()[0].strip()`, for the line separators LF and CR. -/
def pyFirstLine (s : String) : String :=
  pyStrip (String.mk (s.data.takeWhile (fun c => c != '\n' && c != '\r')))

/-- Observable interface of the external BeautifulSoup collaborator:
`canonical h` models `str(BeautifulSoup(h, "html.parser"))`, `innerText h`
models `soup.get_text(" ").strip()` before the final strip, and `hasTag h`
models `bool(soup.find())`. -/
structure SoupModel where
  canonical : String → String
  innerText : String → String
  hasTag : String → Bool

/-- One raw parsed element as consumed by the chunker; the attributes read by
the code are `text`, `category`, `metadata.text_as_html`, and
`metadata.page_number`. -/
structure RawElement where
  text : String
  category : String
  text_as_html : Option String
  page_number : Option Nat
deriving DecidableEq, Inhabited

/-- One normalized element (the dictionaries appended to `normalized_elements`
in lines 138-146 of the source). -/
structure NormalizedElement where
  display_text : String
  token_text : String
  category : String
  «section» : String
  page_number : Option Nat
deriving DecidableEq, Inhabited

/-- One emitted chunk record (lines 190-198 of the source). -/
structure Chunk where
  content : String
  token_text : String
  token_count : Nat
  pages : List Nat
  «section» : String
deriving DecidableEq, Inhabited

/-- Heading-like element categories: `HEADER_CATEGORIES` in the source. -/
def HEADER_CATEGORIES : List String :=
  ["Title", "Subtitle", "Section Header", "Header", "Heading", "SectionHeading"]

/-- The heading-category set as enumerated by the spec sentence the claims
quote ("title, subtitle, section header, header, heading"); kept separate so
it can be compared with the source's `HEADER_CATEGORIES`. -/
def specHeadingCategories : List String :=
  ["Title", "Subtitle", "Section Header", "Header", "Heading"]

/-- `_looks_like_html` (lines 72-76): requires both angle brackets and at
least one parsed tag. -/
def looks_like_html (sm : SoupModel) (text : String) : Bool :=
  if !(containsChar text '<') || !(containsChar text '>') then false
  else sm.hasTag text

/-- `_normalize_element_content` (lines 103-122): display text and token text
for one element. -/
def normalize_element_content (sm : SoupModel) (e : RawElement) : String × String :=
  let text := pyStrip e.text
  let htmlText := e.text_as_html.getD ""
  if htmlText != "" then
    (sm.canonical htmlText, pyStrip (sm.innerText htmlText))
  else if text != "" && looks_like_html sm text then
    let plain := pyStrip (sm.innerText text)
    (plain, plain)
  else
    (text, text)

/-- Normalization loop of `_semantic_chunk_elements` (lines 126-146): drop
elements with empty display text, track the running section, stamp each kept
element with the section as it stands after the potential heading update. -/
def normalizeElements (sm : SoupModel) : List RawElement → String → List NormalizedElement
  | [], _ => []
  | e :: rest, currentSection =>
    let dt := normalize_element_content sm e
    if dt.1 = "" then normalizeElements sm rest currentSection
    else
      let category := pyStrip e.category
      let newSection :=
        if category ∈ HEADER_CATEGORIES ∧ dt.1 ≠ "" then pyFirstLine dt.1 else currentSection
      ⟨dt.1, (if dt.2 ≠ "" then dt.2 else dt.1), category, newSection, e.page_number⟩ ::
        normalizeElements sm rest newSection

/-- Inner accumulation loop of `_semantic_chunk_elements` (lines 157-168):
`acc` is `tokens_accumulated`, `k` the number of elements already admitted
into the window; the result is the number of admitted elements. -/
def windowExtend (tc : String → Nat) (B : Nat) : List NormalizedElement → Nat → Nat → Nat
  | [], _, k => k
  | x :: rest, acc, k =>
    let c := tc x.token_text
    if B < acc + c ∧ 0 < k then k
    else if B ≤ acc + c then k + 1
    else windowExtend tc B rest (acc + c) (k + 1)

/-- End index of the window starting at `start`, including the defensive
single-element fallback of lines 170-174. -/
def windowEnd (tc : String → Nat) (B : Nat) (nel : List NormalizedElement) (start : Nat) : Nat :=
  let n := windowExtend tc B (nel.drop start) 0 0
  if n = 0 ∧ start < nel.length then start + 1 else start + n

/-- Backward overlap walk (lines 204-210): decrement `new_start` from the
window end, re-accumulating token counts, while `new_start > startIdx` and the
accumulated overlap is below the target `O`. -/
def overlapWalk (tc : String → Nat) (nel : List NormalizedElement) (startIdx O : Nat) :
    Nat → Nat → Nat
  | 0, _ => 0
  | m + 1, acc =>
    if startIdx < m + 1 ∧ acc < O then
      overlapWalk tc nel startIdx O m (acc + tc (nel.getD m default).token_text)
    else m + 1

/-- Next window start (lines 203-215): the walk result, bumped by one element
when it returned the current start (lines 212-213). -/
def nextStart (tc : String → Nat) (nel : List NormalizedElement) (O start endIdx : Nat) : Nat :=
  let ns := overlapWalk tc nel start O endIdx 0
  if ns = start then start + 1 else ns

/-- Outer loop of `_semantic_chunk_elements` (lines 152-215) producing the
element windows `[start, stop)`.  `fuel` bounds the number of iterations;
`nel.length` is always sufficient because the start strictly increases. -/
def buildWindows (tc : String → Nat) (B O : Nat) (nel : List NormalizedElement) :
    Nat → Nat → List (Nat × Nat)
  | 0, _ => []
  | fuel + 1, start =>
    if start < nel.length then
      let e := windowEnd tc B nel start
      if nel.length ≤ e then [(start, e)]
      else (start, e) :: buildWindows tc B O nel fuel (nextStart tc nel O start e)
    else []

/-- The element window `[w.1, w.2)` of the normalized sequence. -/
def windowSlice (nel : List NormalizedElement) (w : Nat × Nat) : List NormalizedElement :=
  (nel.drop w.1).take (w.2 - w.1)

/-- Insertion into an ascending list, for the model of Python `sorted`. -/
def insertAsc (n : Nat) : List Nat → List Nat
  | [] => [n]
  | m :: rest => if n ≤ m then n :: m :: rest else m :: insertAsc n rest

/-- Ascending sort, for the model of Python `sorted(set(...))`. -/
def sortNat (l : List Nat) : List Nat := l.foldr insertAsc []

/-- Chunk record built from one window (lines 176-198 of the source). -/
def emitChunk (tc : String → Nat) (ws : List NormalizedElement) : Chunk :=
  let displaySegments := (ws.filter (fun s => s.display_text != "")).map (fun s => s.display_text)
  let tokenSegments := (ws.filter (fun s => s.token_text != "")).map (fun s => s.token_text)
  let chunkDisplay := pyStrip (String.intercalate "\n\n" displaySegments)
  let chunkToken := pyStrip (String.intercalate "\n\n" tokenSegments)
  let pages := sortNat ((ws.map (fun s => s.page_number.getD 1)).dedup)
  let sectionName :=
    ((ws.reverse.find? (fun s => s.«section» != "")).map (fun s => s.«section»)).getD ""
  ⟨chunkDisplay, chunkToken, (if chunkToken != "" then tc chunkToken else 0),
   (if pages = [] then [1] else pages), sectionName⟩

/-- Overlap target `max(int(chunk_target_size * overlap_ratio), 1)` of line
203; `int()` truncation and `floor` agree here after the `max` with 1. -/
def overlap_tokens (B : Nat) (r : ℚ) : Nat := max (Int.floor ((B : ℚ) * r)).toNat 1

/-- Windowing and emission over an already normalized sequence. -/
def chunksOfNormalized (tc : String → Nat) (B : Nat) (r : ℚ)
    (nel : List NormalizedElement) : List Chunk :=
  (buildWindows tc B (overlap_tokens B r) nel nel.length 0).map
    (fun w => emitChunk tc (windowSlice nel w))

/-- Full `_semantic_chunk_elements` (lines 125-217): one-pass normalization
with section tracking, then token-budgeted overlapping windows, then chunk
emission. -/
def semantic_chunk_elements (sm : SoupModel) (tc : String → Nat)
    (elements : List RawElement) (B : Nat) (r : ℚ) : List Chunk :=
  chunksOfNormalized tc B r (normalizeElements sm elements "")

/-- Total token mass of a list of normalized elements. -/
def tokSum (tc : String → Nat) (l : List NormalizedElement) : Nat :=
  (l.map (fun s => tc s.token_text)).sum

/-- Tag stripper over a character stream: drops everything between angle
brackets.  Concrete model of `soup.get_text` for simple single-level
fragments, used only for concrete instances below. -/
def stripTagsAux : List Char → Bool → List Char
  | [], _ => []
  | c :: rest, inTag =>
    if c = '<' then stripTagsAux rest true
    else if c = '>' then stripTagsAux rest false
    else if inTag then stripTagsAux rest true
    else c :: stripTagsAux rest false

/-- String version of `stripTagsAux`. -/
def stripTags (s : String) : String := String.mk (stripTagsAux s.data false)

/-- Concrete instance of the markup collaborator that never detects tags. -/
def trivialSoup : SoupModel := ⟨fun s => s, fun s => s, fun _ => false⟩

/-- Concrete instance of the markup collaborator for simple well-formed
fragments: canonical printing is the identity, text extraction strips tags,
tag detection checks for an angle-bracket pair. -/
def simpleSoup : SoupModel :=
  ⟨fun s => s, stripTags, fun s => containsChar s '<' && containsChar s '>'⟩

/-- Length-of-string token counter: one concrete instance of the opaque
external tokenizer. -/
def tcLen : String → Nat := fun s => s.length

/-- Normalized element with the given display and token text and no metadata. -/
def neOf (t : String) : NormalizedElement := ⟨t, t, "", "", none⟩

/-- Three one-token elements (under `tcLen`). -/
def neABC : List NormalizedElement := [neOf "a", neOf "b", neOf "c"]

/-- Two one-token elements (under `tcLen`). -/
def neAB : List NormalizedElement := [neOf "a", neOf "b"]

/-- A one-token element followed by a twelve-token element (under `tcLen`). -/
def neSplit : List NormalizedElement := [neOf "a", neOf "bbbbbbbbbbbb"]

@[simp] theorem tokSum_nil (tc : String → Nat) : tokSum tc [] = 0 := rfl

@[simp] theorem tokSum_cons (tc : String → Nat) (x : NormalizedElement)
    (l : List NormalizedElement) : tokSum tc (x :: l) = tc x.token_text + tokSum tc l := by
  simp [tokSum]

theorem windowExtend_ge (tc : String → Nat) (B : Nat) :
    ∀ (l : List NormalizedElement) (acc k : Nat), k ≤ windowExtend tc B l acc k := by
  intro l
  induction l with
  | nil => intro acc k; simp [windowExtend]
  | cons x rest ih =>
    intro acc k
    simp only [windowExtend]
    split_ifs with h1 h2
    · exact le_refl k
    · exact Nat.le_succ k
    · exact le_trans (Nat.le_succ k) (ih _ _)

theorem windowExtend_le (tc : String → Nat) (B : Nat) :
    ∀ (l : List NormalizedElement) (acc k : Nat), windowExtend tc B l acc k ≤ k + l.length := by
  intro l
  induction l with
  | nil => intro acc k; simp [windowExtend]
  | cons x rest ih =>
    intro acc k
    simp only [windowExtend, List.length_cons]
    split_ifs with h1 h2
    · omega
    · omega
    · have := ih (acc + tc x.token_text) (k + 1)
      omega

theorem windowExtend_pos (tc : String → Nat) (B : Nat) (x : NormalizedElement)
    (rest : List NormalizedElement) (acc : Nat) : 0 < windowExtend tc B (x :: rest) acc 0 := by
  simp only [windowExtend]
  split_ifs with h1 h2
  · exact absurd h1.2 (lt_irrefl 0)
  · exact Nat.zero_lt_one
  · exact lt_of_lt_of_le Nat.zero_lt_one (windowExtend_ge tc B rest _ 1)

theorem windowExtend_budget (tc : String → Nat) (B : Nat) :
    ∀ (l : List NormalizedElement) (acc k n : Nat), windowExtend tc B l acc k = n → k < n →
      (k = 0 ∧ n = 1) ∨ acc + tokSum tc (l.take (n - k)) ≤ B := by
  intro l
  induction l with
  | nil =>
    intro acc k n h hk
    simp only [windowExtend] at h
    omega
  | cons x rest ih =>
    intro acc k n h hk
    simp only [windowExtend] at h
    split_ifs at h with h1 h2
    · omega
    · rcases Nat.eq_zero_or_pos k with hk0 | hkpos
      · exact Or.inl ⟨hk0, by omega⟩
      · have hle : acc + tc x.token_text ≤ B := by
          by_contra hgt
          exact h1 ⟨by omega, hkpos⟩
        have hnk : n - k = 1 := by omega
        rw [hnk]
        simp only [List.take_succ_cons, List.take_zero, tokSum_cons, tokSum_nil]
        omega
    · have hge : k + 1 ≤ n := h ▸ windowExtend_ge tc B rest (acc + tc x.token_text) (k + 1)
      rcases Nat.lt_or_ge (k + 1) n with hlt | hge'
      · have := ih (acc + tc x.token_text) (k + 1) n h hlt
        rcases this with ⟨h0, _⟩ | hsum
        · omega
        · right
          have hnk : n - k = (n - (k + 1)) + 1 := by omega
          rw [hnk]
          simp only [List.take_succ_cons, tokSum_cons]
          omega
      · right
        have hnk : n - k = 1 := by omega
        rw [hnk]
        simp only [List.take_succ_cons, List.take_zero, tokSum_cons, tokSum_nil]
        omega

theorem windowEnd_gt (tc : String → Nat) (B : Nat) (nel : List NormalizedElement) (start : Nat)
    (h : start < nel.length) : start < windowEnd tc B nel start := by
  simp only [windowEnd]
  split_ifs with h1
  · omega
  · have : nel.drop start ≠ [] := by
      intro hnil
      have := List.length_drop start nel
      rw [hnil] at this
      simp at this
      omega
    rcases List.exists_cons_of_ne_nil this with ⟨x, rest, hx⟩
    have := windowExtend_pos tc B x rest 0
    rw [← hx] at this
    omega

theorem windowEnd_le (tc : String → Nat) (B : Nat) (nel : List NormalizedElement) (start : Nat)
    (h : start < nel.length) : windowEnd tc B nel start ≤ nel.length := by
  simp only [windowEnd]
  split_ifs with h1
  · omega
  · have := windowExtend_le tc B (nel.drop start) 0 0
    rw [List.length_drop] at this
    omega

theorem windowEnd_budget (tc : String → Nat) (B : Nat) (nel : List NormalizedElement) (start : Nat)
    (_h : start < nel.length) (h2 : start + 2 ≤ windowEnd tc B nel start) :
    tokSum tc (windowSlice nel (start, windowEnd tc B nel start)) ≤ B := by
  revert h2
  simp only [windowEnd, windowSlice]
  split_ifs with h1
  · omega
  · intro h2
    have hbud := windowExtend_budget tc B (nel.drop start) 0 0
      (windowExtend tc B (nel.drop start) 0 0) rfl (by omega)
    rcases hbud with ⟨_, hone⟩ | hsum
    · omega
    · simpa using hsum

@[simp] theorem tokSum_append (tc : String → Nat) (l1 l2 : List NormalizedElement) :
    tokSum tc (l1 ++ l2) = tokSum tc l1 + tokSum tc l2 := by
  simp [tokSum]

theorem windowSlice_nil (nel : List NormalizedElement) (a : Nat) :
    windowSlice nel (a, a) = [] := by
  simp [windowSlice]

theorem windowSlice_snoc (nel : List NormalizedElement) (a b : Nat) (ha : a ≤ b)
    (hb : b < nel.length) :
    windowSlice nel (a, b + 1) = windowSlice nel (a, b) ++ [nel.getD b default] := by
  simp only [windowSlice]
  have h1 : b + 1 - a = (b - a) + 1 := by omega
  rw [h1, List.take_succ]
  congr 1
  have h2 : (nel.drop a)[b - a]? = nel[b]? := by
    rw [List.getElem?_drop]
    congr 1
    omega
  rw [h2, List.getElem?_eq_getElem hb]
  simp [List.getD_eq_getElem?_getD, List.getElem?_eq_getElem hb]

theorem overlapWalk_le (tc : String → Nat) (nel : List NormalizedElement) (startIdx O : Nat) :
    ∀ (m acc : Nat), overlapWalk tc nel startIdx O m acc ≤ m := by
  intro m
  induction m with
  | zero => intro acc; simp [overlapWalk]
  | succ p ih =>
    intro acc
    simp only [overlapWalk]
    split_ifs with h
    · exact le_trans (ih _) (Nat.le_succ p)
    · exact le_refl _

theorem overlapWalk_ge (tc : String → Nat) (nel : List NormalizedElement) (startIdx O : Nat) :
    ∀ (m acc : Nat), startIdx ≤ m → startIdx ≤ overlapWalk tc nel startIdx O m acc := by
  intro m
  induction m with
  | zero => intro acc h; simpa [overlapWalk] using h
  | succ p ih =>
    intro acc h
    simp only [overlapWalk]
    split_ifs with hg
    · exact ih _ (by omega)
    · exact h

theorem overlapWalk_mass (tc : String → Nat) (nel : List NormalizedElement) (startIdx O : Nat) :
    ∀ (m acc : Nat), m ≤ nel.length →
      startIdx < overlapWalk tc nel startIdx O m acc →
      O ≤ acc + tokSum tc (windowSlice nel (overlapWalk tc nel startIdx O m acc, m)) := by
  intro m
  induction m with
  | zero =>
    intro acc hlen hgt
    simp only [overlapWalk] at hgt
    omega
  | succ p ih =>
    intro acc hlen hgt
    simp only [overlapWalk] at hgt ⊢
    split_ifs with hg
    · rw [if_pos hg] at hgt
      have hrec := ih (acc + tc (nel.getD p default).token_text) (by omega) hgt
      have hres : overlapWalk tc nel startIdx O p (acc + tc (nel.getD p default).token_text) ≤ p :=
        overlapWalk_le tc nel startIdx O p _
      rw [windowSlice_snoc nel _ p hres (by omega), tokSum_append]
      simp only [tokSum_cons, tokSum_nil] at *
      omega
    · rw [if_neg hg] at hgt
      have hO : O ≤ acc := by
        by_contra hacc
        exact hg ⟨hgt, by omega⟩
      rw [windowSlice_nil]
      omega

theorem nextStart_gt (tc : String → Nat) (nel : List NormalizedElement) (O start endIdx : Nat)
    (h : start < endIdx) : start < nextStart tc nel O start endIdx := by
  simp only [nextStart]
  split_ifs with hns
  · omega
  · have := overlapWalk_ge tc nel start O endIdx 0 (le_of_lt h)
    omega

theorem nextStart_le (tc : String → Nat) (nel : List NormalizedElement) (O start endIdx : Nat)
    (h : start < endIdx) : nextStart tc nel O start endIdx ≤ endIdx := by
  simp only [nextStart]
  split_ifs with hns
  · omega
  · exact overlapWalk_le tc nel start O endIdx 0

theorem nextStart_mass (tc : String → Nat) (nel : List NormalizedElement) (O start endIdx : Nat)
    (h : start < endIdx) (hlen : endIdx ≤ nel.length) :
    O ≤ tokSum tc (windowSlice nel (nextStart tc nel O start endIdx, endIdx)) ∨
      nextStart tc nel O start endIdx = start + 1 := by
  simp only [nextStart]
  split_ifs with hns
  · exact Or.inr rfl
  · left
    have hge := overlapWalk_ge tc nel start O endIdx 0 (le_of_lt h)
    have hgt : start < overlapWalk tc nel start O endIdx 0 := by omega
    have := overlapWalk_mass tc nel start O endIdx 0 hlen hgt
    simpa using this

theorem buildWindows_mem (tc : String → Nat) (B O : Nat) (nel : List NormalizedElement) :
    ∀ (fuel start : Nat) (w : Nat × Nat), w ∈ buildWindows tc B O nel fuel start →
      start ≤ w.1 ∧ w.1 < w.2 ∧ w.2 ≤ nel.length ∧ w.2 = windowEnd tc B nel w.1 := by
  intro fuel
  induction fuel with
  | zero => intro start w hw; simp [buildWindows] at hw
  | succ f ih =>
    intro start w hw
    simp only [buildWindows] at hw
    split_ifs at hw with hs he
    · simp only [List.mem_singleton] at hw
      subst hw
      exact ⟨le_refl _, windowEnd_gt tc B nel start hs, windowEnd_le tc B nel start hs, rfl⟩
    · rcases List.mem_cons.mp hw with hw1 | hw2
      · subst hw1
        exact ⟨le_refl _, windowEnd_gt tc B nel start hs, windowEnd_le tc B nel start hs, rfl⟩
      · have hrec := ih _ w hw2
        have hgt := nextStart_gt tc nel O start (windowEnd tc B nel start)
          (windowEnd_gt tc B nel start hs)
        exact ⟨by omega, hrec.2.1, hrec.2.2.1, hrec.2.2.2⟩
    · simp at hw

theorem buildWindows_head (tc : String → Nat) (B O : Nat) (nel : List NormalizedElement) :
    ∀ (fuel start : Nat) (w : Nat × Nat),
      (buildWindows tc B O nel fuel start).head? = some w → w.1 = start := by
  intro fuel
  cases fuel with
  | zero => intro start w hw; simp [buildWindows] at hw
  | succ f =>
    intro start w hw
    simp only [buildWindows] at hw
    split_ifs at hw with hs he
    · simp only [List.head?_cons, Option.some_inj] at hw
      subst hw; rfl
    · simp only [List.head?_cons, Option.some_inj] at hw
      subst hw; rfl
    · simp at hw

theorem buildWindows_chain (tc : String → Nat) (B O : Nat) (nel : List NormalizedElement) :
    ∀ (fuel start : Nat),
      List.Chain'
        (fun a b => a.1 < a.2 ∧ a.2 ≤ nel.length ∧ b.1 = nextStart tc nel O a.1 a.2)
        (buildWindows tc B O nel fuel start) := by
  intro fuel
  induction fuel with
  | zero => intro start; simp [buildWindows]
  | succ f ih =>
    intro start
    simp only [buildWindows]
    split_ifs with hs he
    · exact List.chain'_singleton _
    · refine List.chain'_cons'.mpr ⟨?_, ih _⟩
      intro y hy
      have hyfst := buildWindows_head tc B O nel f _ y hy
      exact ⟨windowEnd_gt tc B nel start hs, windowEnd_le tc B nel start hs, hyfst⟩
    · exact List.chain'_nil

theorem buildWindows_cover (tc : String → Nat) (B O : Nat) (nel : List NormalizedElement) :
    ∀ (fuel start i : Nat), start ≤ i → i < nel.length → nel.length - start ≤ fuel →
      ∃ w ∈ buildWindows tc B O nel fuel start, w.1 ≤ i ∧ i < w.2 := by
  intro fuel
  induction fuel with
  | zero => intro start i h1 h2 h3; omega
  | succ f ih =>
    intro start i h1 h2 h3
    have hs : start < nel.length := by omega
    simp only [buildWindows]
    rw [if_pos hs]
    by_cases he : nel.length ≤ windowEnd tc B nel start
    · rw [if_pos he]
      exact ⟨(start, windowEnd tc B nel start), List.mem_singleton_self _, h1, by omega⟩
    · rw [if_neg he]
      by_cases hi : i < windowEnd tc B nel start
      · exact ⟨(start, windowEnd tc B nel start), List.mem_cons_self _ _, h1, hi⟩
      · have hgt := nextStart_gt tc nel O start (windowEnd tc B nel start)
          (windowEnd_gt tc B nel start hs)
        have hle := nextStart_le tc nel O start (windowEnd tc B nel start)
          (windowEnd_gt tc B nel start hs)
        obtain ⟨w, hw, hwi⟩ := ih (nextStart tc nel O start (windowEnd tc B nel start)) i
          (by omega) h2 (by omega)
        exact ⟨w, List.mem_cons_of_mem _ hw, hwi⟩

theorem buildWindows_length (tc : String → Nat) (B O : Nat) (nel : List NormalizedElement) :
    ∀ (fuel start : Nat), (buildWindows tc B O nel fuel start).length ≤ nel.length - start := by
  intro fuel
  induction fuel with
  | zero => intro start; simp [buildWindows]
  | succ f ih =>
    intro start
    simp only [buildWindows]
    split_ifs with hs he
    · simp
      omega
    · have hgt := nextStart_gt tc nel O start (windowEnd tc B nel start)
        (windowEnd_gt tc B nel start hs)
      have := ih (nextStart tc nel O start (windowEnd tc B nel start))
      simp only [List.length_cons]
      omega
    · simp

theorem buildWindows_ne_nil (tc : String → Nat) (B O : Nat) (nel : List NormalizedElement)
    (fuel start : Nat) (hs : start < nel.length) (hf : 0 < fuel) :
    buildWindows tc B O nel fuel start ≠ [] := by
  cases fuel with
  | zero => omega
  | succ f =>
    simp only [buildWindows]
    rw [if_pos hs]
    split_ifs with he
    · simp
    · simp

theorem buildWindows_last (tc : String → Nat) (B O : Nat) (nel : List NormalizedElement) :
    ∀ (fuel start : Nat), start < nel.length → nel.length - start ≤ fuel →
      (buildWindows tc B O nel fuel start).getLast?.map Prod.snd = some nel.length := by
  intro fuel
  induction fuel with
  | zero => intro start h1 h2; omega
  | succ f ih =>
    intro start hs hfuel
    simp only [buildWindows]
    rw [if_pos hs]
    by_cases he : nel.length ≤ windowEnd tc B nel start
    · rw [if_pos he]
      have := windowEnd_le tc B nel start hs
      simp only [List.getLast?_singleton, Option.map_some']
      congr 1
      omega
    · rw [if_neg he]
      have hgt := nextStart_gt tc nel O start (windowEnd tc B nel start)
        (windowEnd_gt tc B nel start hs)
      have hle := nextStart_le tc nel O start (windowEnd tc B nel start)
        (windowEnd_gt tc B nel start hs)
      have hs' : nextStart tc nel O start (windowEnd tc B nel start) < nel.length := by omega
      have hrest := buildWindows_ne_nil tc B O nel f
        (nextStart tc nel O start (windowEnd tc B nel start)) hs' (by omega)
      obtain ⟨r, rs, hr⟩ := List.exists_cons_of_ne_nil hrest
      rw [hr, List.getLast?_cons_cons, ← hr]
      exact ih _ hs' (by omega)


theorem normalizeElements_cons_empty (sm : SoupModel) (e : RawElement) (rest : List RawElement)
    (sec0 : String) (hd : (normalize_element_content sm e).1 = "") :
    normalizeElements sm (e :: rest) sec0 = normalizeElements sm rest sec0 := by
  simp only [normalizeElements]
  rw [if_pos hd]

theorem normalizeElements_cons_kept (sm : SoupModel) (e : RawElement) (rest : List RawElement)
    (sec0 : String) (hd : ¬(normalize_element_content sm e).1 = "") :
    normalizeElements sm (e :: rest) sec0 =
      (⟨(normalize_element_content sm e).1,
        (if (normalize_element_content sm e).2 ≠ "" then (normalize_element_content sm e).2
         else (normalize_element_content sm e).1),
        pyStrip e.category,
        (if pyStrip e.category ∈ HEADER_CATEGORIES ∧ (normalize_element_content sm e).1 ≠ ""
         then pyFirstLine (normalize_element_content sm e).1 else sec0),
        e.page_number⟩ : NormalizedElement) ::
        normalizeElements sm rest
          (if pyStrip e.category ∈ HEADER_CATEGORIES ∧ (normalize_element_content sm e).1 ≠ ""
           then pyFirstLine (normalize_element_content sm e).1 else sec0) := by
  simp only [normalizeElements]
  rw [if_neg hd]

theorem normalizeElements_count (sm : SoupModel) :
    ∀ (l : List RawElement) (sec0 : String),
      (normalizeElements sm l sec0).length =
        l.countP (fun e => (normalize_element_content sm e).1 != "") := by
  intro l
  induction l with
  | nil => intro sec0; simp [normalizeElements]
  | cons e rest ih =>
    intro sec0
    by_cases hd : (normalize_element_content sm e).1 = ""
    · rw [normalizeElements_cons_empty sm e rest sec0 hd, List.countP_cons, ih]
      have hp : ((normalize_element_content sm e).1 != "") = false := by simp [hd]
      rw [hp]
      simp
    · rw [normalizeElements_cons_kept sm e rest sec0 hd, List.length_cons, List.countP_cons, ih]
      have hp : ((normalize_element_content sm e).1 != "") = true := by simpa using hd
      rw [hp]
      simp

theorem normalizeElements_display_ne (sm : SoupModel) :
    ∀ (l : List RawElement) (sec0 : String) (x : NormalizedElement),
      x ∈ normalizeElements sm l sec0 → x.display_text ≠ "" := by
  intro l
  induction l with
  | nil => intro sec0 x hx; simp [normalizeElements] at hx
  | cons e rest ih =>
    intro sec0 x hx
    by_cases hd : (normalize_element_content sm e).1 = ""
    · rw [normalizeElements_cons_empty sm e rest sec0 hd] at hx
      exact ih _ x hx
    · rw [normalizeElements_cons_kept sm e rest sec0 hd] at hx
      rcases List.mem_cons.mp hx with hx1 | hx2
      · subst hx1
        exact hd
      · exact ih _ x hx2

theorem normalizeElements_sectionSpec (sm : SoupModel) :
    ∀ (l : List RawElement) (sec0 : String),
      (∀ x : NormalizedElement, (normalizeElements sm l sec0)[0]? = some x →
        x.«section» =
          (if x.category ∈ HEADER_CATEGORIES then pyFirstLine x.display_text else sec0))
      ∧ (∀ (i : Nat) (x y : NormalizedElement),
          (normalizeElements sm l sec0)[i]? = some x →
          (normalizeElements sm l sec0)[i + 1]? = some y →
        y.«section» =
          (if y.category ∈ HEADER_CATEGORIES then pyFirstLine y.display_text
           else x.«section»)) := by
  intro l
  induction l with
  | nil =>
    intro sec0
    constructor
    · intro x hx
      simp [normalizeElements] at hx
    · intro i x y hx hy
      simp [normalizeElements] at hx
  | cons e rest ih =>
    intro sec0
    by_cases hd : (normalize_element_content sm e).1 = ""
    · rw [normalizeElements_cons_empty sm e rest sec0 hd]
      exact ih sec0
    · rw [normalizeElements_cons_kept sm e rest sec0 hd]
      constructor
      · intro x hx
        rw [List.getElem?_cons_zero, Option.some_inj] at hx
        subst hx
        by_cases hc : pyStrip e.category ∈ HEADER_CATEGORIES
        · simp [hc, hd]
        · simp [hc, hd]
      · intro i x y hx hy
        rw [List.getElem?_cons_succ] at hy
        cases i with
        | zero =>
          rw [List.getElem?_cons_zero, Option.some_inj] at hx
          have := (ih _).1 y hy
          rw [this]
          subst hx
          rfl
        | succ j =>
          rw [List.getElem?_cons_succ] at hx
          exact (ih _).2 j x y hx hy

/-- One persisted chunk record as seen by the query-time resolver: keyed by
source file name and chunk index. -/
structure StoredChunk where
  file_name : String
  chunk_index : Nat
  content : String
deriving DecidableEq, Inhabited

/-- Point lookup by `(source_file, index)` equality against the chunk store. -/
def lookupChunk (store : List StoredChunk) (file : String) (idx : Nat) : List StoredChunk :=
  store.filter (fun c => c.file_name == file && c.chunk_index == idx)

/-- Modelled from the spec: the chunk-family resolver `_combine_chunk_family`
of the retrieval approach (`app/backend/approaches/chatreadretrieveread.py`)
is not among the provided sources, only its unit test is.  Following the
spec's words: look up the chunk at `index - 1` in the same source file if
`index > 0` and at `index + 1` if `index + 1 < total`; a lookup returning
zero records means the neighbor is absent, more than one means the first is
used; merge in strictly ascending index order (predecessor, primary,
successor), joining texts with a blank line. -/
def combine_chunk_family (store : List StoredChunk) (primary : StoredChunk) (total : Nat) :
    String × List StoredChunk :=
  let prev :=
    if 0 < primary.chunk_index then
      (lookupChunk store primary.file_name (primary.chunk_index - 1)).head?
    else none
  let next :=
    if primary.chunk_index + 1 < total then
      (lookupChunk store primary.file_name (primary.chunk_index + 1)).head?
    else none
  let docs := prev.toList ++ [primary] ++ next.toList
  (String.intercalate "\n\n" (docs.map (fun c => c.content)), docs)

theorem lookupChunk_mem (store : List StoredChunk) (f : String) (i : Nat) (c : StoredChunk)
    (hc : c ∈ lookupChunk store f i) : c.chunk_index = i := by
  simp only [lookupChunk, List.mem_filter, Bool.and_eq_true, beq_iff_eq] at hc
  exact hc.2.2

theorem head?_of_ne_nil {α : Type} (l : List α) (h : l ≠ []) :
    ∃ c, l.head? = some c ∧ c ∈ l := by
  cases l with
  | nil => exact absurd rfl h
  | cons a rest => exact ⟨a, rfl, List.mem_cons_self a rest⟩

/-- Claim C7: the window-building loop of `_semantic_chunk_elements` terminates on
every finite input: after each emitted non-final window the next window's start is
strictly greater than the current one, and the number of emitted chunks is bounded
by the number of normalized elements. -/
theorem claimC7 (sm : SoupModel) (tc : String → Nat) (elements : List RawElement)
    (B : Nat) (r : ℚ) :
    List.Chain' (fun a b => a.1 < b.1)
      (buildWindows tc B (overlap_tokens B r) (normalizeElements sm elements "")
        (normalizeElements sm elements "").length 0)
    ∧ (semantic_chunk_elements sm tc elements B r).length ≤
        (normalizeElements sm elements "").length := by
  constructor
  · have hch := buildWindows_chain tc B (overlap_tokens B r) (normalizeElements sm elements "")
      (normalizeElements sm elements "").length 0
    refine hch.imp ?_
    intro a b hab
    rw [hab.2.2]
    exact nextStart_gt tc (normalizeElements sm elements "") (overlap_tokens B r) a.1 a.2 hab.1
  · have hlen := buildWindows_length tc B (overlap_tokens B r) (normalizeElements sm elements "")
      (normalizeElements sm elements "").length 0
    simp only [semantic_chunk_elements, chunksOfNormalized, List.length_map]
    omega

/-- Claim C10: the element windows are contiguous index intervals of the
normalized sequence: the first starts at 0, every window is nonempty and ends
within the sequence, each next start lies strictly after the current start and
no later than the current end, the last window ends at the sequence end, and
every index of the normalized sequence is covered by at least one window. -/
theorem claimC10 (tc : String → Nat) (B : Nat) (r : ℚ) (nel : List NormalizedElement) :
    (∀ w ∈ buildWindows tc B (overlap_tokens B r) nel nel.length 0,
        w.1 < w.2 ∧ w.2 ≤ nel.length)
    ∧ (nel ≠ [] →
        (buildWindows tc B (overlap_tokens B r) nel nel.length 0).head?.map Prod.fst = some 0)
    ∧ List.Chain' (fun a b => a.1 < b.1 ∧ b.1 ≤ a.2)
        (buildWindows tc B (overlap_tokens B r) nel nel.length 0)
    ∧ (nel ≠ [] →
        (buildWindows tc B (overlap_tokens B r) nel nel.length 0).getLast?.map Prod.snd =
          some nel.length)
    ∧ (∀ i, i < nel.length →
        ∃ w ∈ buildWindows tc B (overlap_tokens B r) nel nel.length 0, w.1 ≤ i ∧ i < w.2) := by
  refine ⟨?_, ?_, ?_, ?_, ?_⟩
  · intro w hw
    have := buildWindows_mem tc B (overlap_tokens B r) nel nel.length 0 w hw
    exact ⟨this.2.1, this.2.2.1⟩
  · intro hne
    have hlen : 0 < nel.length := List.length_pos.mpr hne
    have hnil := buildWindows_ne_nil tc B (overlap_tokens B r) nel nel.length 0 hlen hlen
    obtain ⟨w, hw, _⟩ := head?_of_ne_nil _ hnil
    rw [hw, Option.map_some']
    rw [buildWindows_head tc B (overlap_tokens B r) nel nel.length 0 w hw]
  · have hch := buildWindows_chain tc B (overlap_tokens B r) nel nel.length 0
    refine hch.imp ?_
    intro a b hab
    constructor
    · rw [hab.2.2]
      exact nextStart_gt tc nel (overlap_tokens B r) a.1 a.2 hab.1
    · rw [hab.2.2]
      exact nextStart_le tc nel (overlap_tokens B r) a.1 a.2 hab.1
  · intro hne
    have hlen : 0 < nel.length := List.length_pos.mpr hne
    exact buildWindows_last tc B (overlap_tokens B r) nel nel.length 0 hlen (by omega)
  · intro i hi
    exact buildWindows_cover tc B (overlap_tokens B r) nel nel.length 0 i (Nat.zero_le i) hi
      (by omega)

/-- Witness for claim C10 at a concrete input: three one-token elements with
budget 2 and overlap ratio one half; the last element is covered by a window. -/
theorem claimC10_witness :
    ∃ w ∈ buildWindows tcLen 2 (overlap_tokens 2 ((1:ℚ)/2)) neABC neABC.length 0,
      w.1 ≤ 2 ∧ 2 < w.2 :=
  (claimC10 tcLen 2 ((1:ℚ)/2) neABC).2.2.2.2 2 (by decide)

theorem mem_windowSlice (nel : List NormalizedElement) (a b i : Nat) (h1 : a ≤ i) (h2 : i < b)
    (h3 : b ≤ nel.length) : nel.getD i default ∈ windowSlice nel (a, b) := by
  have hi : i < nel.length := lt_of_lt_of_le h2 h3
  have hsome : (windowSlice nel (a, b))[i - a]? = some (nel.getD i default) := by
    simp only [windowSlice]
    rw [List.getElem?_take]
    rw [if_pos (by omega : i - a < b - a)]
    rw [List.getElem?_drop]
    have hia : a + (i - a) = i := by omega
    rw [hia, List.getElem?_eq_getElem hi]
    simp [List.getD_eq_getElem?_getD, List.getElem?_eq_getElem hi]
  exact List.getElem?_mem hsome

/-- Counterexample to claim C1 as stated: with three one-token elements, budget 2
and overlap ratio one half, the emitted windows are `[0,2)` and `[1,3)`, so the
middle element is contained in two chunks, not exactly one. -/
theorem claimC1_counterexample :
    buildWindows tcLen 2 (overlap_tokens 2 ((1:ℚ)/2)) neABC neABC.length 0 = [(0, 2), (1, 3)]
    ∧ ((buildWindows tcLen 2 (overlap_tokens 2 ((1:ℚ)/2)) neABC neABC.length 0).countP
        (fun w => decide (w.1 ≤ 1 ∧ 1 < w.2))) = 2 := by
  have hO : overlap_tokens 2 ((1:ℚ)/2) = 1 := by norm_num [overlap_tokens]
  rw [hO]
  exact ⟨by decide, by decide⟩

/-- Claim C1 (amended): the normalized sequence keeps exactly the elements whose
display text is nonempty after normalization, and every normalized element is
contained in at least one emitted chunk's window; because consecutive windows
overlap, an element at a chunk boundary may be contained in more than one chunk. -/
theorem claimC1 (sm : SoupModel) (tc : String → Nat) (B : Nat) (r : ℚ)
    (elements : List RawElement) :
    (normalizeElements sm elements "").length =
      elements.countP (fun e => (normalize_element_content sm e).1 != "")
    ∧ (∀ i, i < (normalizeElements sm elements "").length →
        ∃ w ∈ buildWindows tc B (overlap_tokens B r) (normalizeElements sm elements "")
            (normalizeElements sm elements "").length 0, w.1 ≤ i ∧ i < w.2) := by
  constructor
  · exact normalizeElements_count sm elements ""
  · intro i hi
    exact buildWindows_cover tc B (overlap_tokens B r) (normalizeElements sm elements "")
      (normalizeElements sm elements "").length 0 i (Nat.zero_le i) hi (by omega)

/-- Raw plain-text elements used by witnesses. -/
def rawABC : List RawElement := [⟨"a", "", none, none⟩, ⟨"b", "", none, none⟩, ⟨"c", "", none, none⟩]

/-- Witness for claim C1 at a concrete input. -/
theorem claimC1_witness :
    ∃ w ∈ buildWindows tcLen 2 (overlap_tokens 2 ((1:ℚ)/2)) (normalizeElements trivialSoup rawABC "")
        (normalizeElements trivialSoup rawABC "").length 0, w.1 ≤ 0 ∧ 0 < w.2 :=
  (claimC1 trivialSoup tcLen 2 ((1:ℚ)/2) rawABC).2 0 (by decide)

/-- Counterexample to claim C2 as stated: with two one-token elements and budget 2,
the only chunk is built from a two-element window, yet its `token_count` — the
token count of the joined token text — is 4 > 2, because the blank-line join
itself costs tokens. -/
theorem claimC2_counterexample :
    buildWindows tcLen 2 (overlap_tokens 2 ((1:ℚ)/2)) neAB neAB.length 0 = [(0, 2)]
    ∧ (chunksOfNormalized tcLen 2 ((1:ℚ)/2) neAB).map Chunk.token_count = [4]
    ∧ ¬(4 ≤ 2) := by
  have hO : overlap_tokens 2 ((1:ℚ)/2) = 1 := by norm_num [overlap_tokens]
  refine ⟨by rw [hO]; decide, ?_, by decide⟩
  simp only [chunksOfNormalized]
  rw [hO]
  decide

/-- Claim C2 (amended): for every chunk whose window holds at least two elements,
the sum of the per-element token counts is at most the budget; the recorded
`token_count` is the tokenizer's count of the joined token text and can exceed the
budget by the tokens the blank-line joins introduce. -/
theorem claimC2 (tc : String → Nat) (B : Nat) (r : ℚ) (nel : List NormalizedElement) :
    ∀ w ∈ buildWindows tc B (overlap_tokens B r) nel nel.length 0,
      w.1 + 2 ≤ w.2 → tokSum tc (windowSlice nel w) ≤ B := by
  intro w hw h2
  obtain ⟨a, b⟩ := w
  have hm := buildWindows_mem tc B (overlap_tokens B r) nel nel.length 0 (a, b) hw
  simp only at hm h2 ⊢
  have ha : a < nel.length := lt_of_lt_of_le hm.2.1 hm.2.2.1
  have heq : b = windowEnd tc B nel a := hm.2.2.2
  subst heq
  exact windowEnd_budget tc B nel a ha (by omega)

/-- Witness for claim C2 at a concrete input: a two-element window of the
three-element run. -/
theorem claimC2_witness : tokSum tcLen (windowSlice neABC (0, 2)) ≤ 2 :=
  claimC2 tcLen 2 ((1:ℚ)/2) neABC (0, 2)
    (by rw [show overlap_tokens 2 ((1:ℚ)/2) = 1 from by norm_num [overlap_tokens]]; decide)
    (by decide)

/-- Counterexample to claim C3 as stated: token counts 1 and 12, budget 10, ratio
one half give overlap target 5, but the two consecutive windows are `[0,1)` and
`[1,2)`: the second chunk starts exactly at the first chunk's end, the shared
overlap is empty, and its token mass 0 falls short of 5. -/
theorem claimC3_counterexample :
    buildWindows tcLen 10 (overlap_tokens 10 ((1:ℚ)/2)) neSplit neSplit.length 0 = [(0, 1), (1, 2)]
    ∧ overlap_tokens 10 ((1:ℚ)/2) = 5
    ∧ tokSum tcLen (windowSlice neSplit (1, 1)) = 0 := by
  have hO : overlap_tokens 10 ((1:ℚ)/2) = 5 := by
    unfold overlap_tokens
    rw [show (Int.floor (((10:Nat):ℚ) * ((1:ℚ)/2))) = 5 by norm_num]
    decide
  exact ⟨by rw [hO]; decide, hO, by decide⟩

/-- Claim C3 (amended): for consecutive windows the next start lies strictly after
the current start and no later than the current end, and the shared tail has token
mass at least `max(floor(B*r), 1)` unless the backward walk reached the window
start, in which case the next start is exactly one past the current start and the
shared mass may fall short (it is empty when the next start equals the end). -/
theorem claimC3 (tc : String → Nat) (B : Nat) (r : ℚ) (nel : List NormalizedElement) :
    List.Chain'
      (fun a b => a.1 < b.1 ∧ b.1 ≤ a.2 ∧
        (overlap_tokens B r ≤ tokSum tc (windowSlice nel (b.1, a.2)) ∨ b.1 = a.1 + 1))
      (buildWindows tc B (overlap_tokens B r) nel nel.length 0) := by
  have hch := buildWindows_chain tc B (overlap_tokens B r) nel nel.length 0
  refine hch.imp ?_
  intro a b hab
  obtain ⟨h1, h2, h3⟩ := hab
  refine ⟨?_, ?_, ?_⟩
  · rw [h3]
    exact nextStart_gt tc nel (overlap_tokens B r) a.1 a.2 h1
  · rw [h3]
    exact nextStart_le tc nel (overlap_tokens B r) a.1 a.2 h1
  · rw [h3]
    exact nextStart_mass tc nel (overlap_tokens B r) a.1 a.2 h1 h2

theorem intercalate_single (sep a : String) : String.intercalate sep [a] = a := rfl

/-- Claim C6: a window containing an element whose token count alone exceeds the
budget consists of exactly that element; and a document made of one 500-token
element chunked with budget 100 yields exactly one chunk whose `token_count` is
500 (so its chunk total is 1). -/
theorem claimC6 (tc : String → Nat) (B : Nat) (r : ℚ) (nel : List NormalizedElement) :
    (∀ w ∈ buildWindows tc B (overlap_tokens B r) nel nel.length 0,
      ∀ i, w.1 ≤ i → i < w.2 → B < tc ((nel.getD i default).token_text) → w.2 = w.1 + 1)
    ∧ (∀ x : NormalizedElement, x.token_text ≠ "" → pyStrip x.token_text = x.token_text →
        tc x.token_text = 500 →
        (chunksOfNormalized tc 100 r [x]).map Chunk.token_count = [500]) := by
  constructor
  · intro w hw i hi1 hi2 hB
    obtain ⟨a, b⟩ := w
    have hm := buildWindows_mem tc B (overlap_tokens B r) nel nel.length 0 (a, b) hw
    simp only at hm hi1 hi2 ⊢
    have ha : a < nel.length := lt_of_lt_of_le hm.2.1 hm.2.2.1
    by_contra hne
    have h2 : a + 2 ≤ b := by omega
    have heq : b = windowEnd tc B nel a := hm.2.2.2
    subst heq
    have hbud := windowEnd_budget tc B nel a ha (by omega)
    have hmem := mem_windowSlice nel a (windowEnd tc B nel a) i hi1 hi2 hm.2.2.1
    have hle : tc ((nel.getD i default).token_text) ≤
        tokSum tc (windowSlice nel (a, windowEnd tc B nel a)) := by
      have hmm : tc ((nel.getD i default).token_text) ∈
          (windowSlice nel (a, windowEnd tc B nel a)).map (fun s => tc s.token_text) :=
        List.mem_map_of_mem _ hmem
      exact List.single_le_sum (fun x _ => Nat.zero_le x) _ hmm
    omega
  · intro x hne hstrip h500
    have h1 : windowExtend tc 100 [x] 0 0 = 1 := by
      simp only [windowExtend]
      rw [h500]
      decide
    have h2 : windowEnd tc 100 [x] 0 = 1 := by
      simp only [windowEnd, List.drop_zero]
      rw [h1]
      simp
    have h3 : buildWindows tc 100 (overlap_tokens 100 r) [x] 1 0 = [(0, 1)] := by
      simp only [buildWindows]
      rw [h2]
      simp
    have hlenx : ([x] : List NormalizedElement).length = 1 := rfl
    simp only [chunksOfNormalized, hlenx, h3, List.map_cons, List.map_nil]
    have hslice : windowSlice [x] (0, 1) = [x] := by simp [windowSlice]
    rw [hslice]
    have hbt : (x.token_text != "") = true := by simpa using hne
    simp only [emitChunk, List.filter_cons, List.filter_nil, hbt, if_true, List.map_cons,
      List.map_nil, intercalate_single, hstrip]
    simp [hbt, h500]

/-- Witness for claim C6: the 500-token single-element document with budget 100
produces exactly one chunk with `token_count` 500. -/
theorem claimC6_witness :
    (chunksOfNormalized (fun _ => 500) 100 ((1:ℚ)/2) [neOf "t"]).map Chunk.token_count = [500] :=
  (claimC6 (fun _ => 500) 100 ((1:ℚ)/2) []).2 (neOf "t") (by decide) (by decide) rfl

/-- Raw element whose trimmed plain text is HTML-shaped. -/
def rawHtml : RawElement := ⟨"<b>hi</b>", "", none, none⟩

/-- Counterexample to claim C4 as stated: for an element whose plain text is
HTML-shaped (and no metadata rendering), the code returns the tag-stripped text
"hi" as display text, not the parsed-and-canonicalized markup, so the display
text is not HTML-preserving in this branch. -/
theorem claimC4_counterexample :
    normalize_element_content simpleSoup rawHtml = ("hi", "hi")
    ∧ looks_like_html simpleSoup (pyStrip rawHtml.text) = true
    ∧ simpleSoup.canonical (pyStrip rawHtml.text) = "<b>hi</b>"
    ∧ ("hi" : String) ≠ "<b>hi</b>" :=
  ⟨by decide, by decide, by decide, by decide⟩

/-- Claim C4 (amended): the display text is the canonicalized HTML rendering when
the source metadata supplies a nonempty one; otherwise, when the trimmed plain
text is HTML-shaped, both the display text and the token text are the tag-stripped
plain text (markup is not preserved); otherwise the raw trimmed text is used for
both. -/
theorem claimC4 (sm : SoupModel) (e : RawElement) :
    (∀ h : String, e.text_as_html = some h → h ≠ "" →
      normalize_element_content sm e = (sm.canonical h, pyStrip (sm.innerText h)))
    ∧ (e.text_as_html.getD "" = "" → pyStrip e.text ≠ "" →
        looks_like_html sm (pyStrip e.text) = true →
        normalize_element_content sm e =
          (pyStrip (sm.innerText (pyStrip e.text)), pyStrip (sm.innerText (pyStrip e.text))))
    ∧ (e.text_as_html.getD "" = "" →
        (pyStrip e.text = "" ∨ looks_like_html sm (pyStrip e.text) = false) →
        normalize_element_content sm e = (pyStrip e.text, pyStrip e.text)) := by
  refine ⟨?_, ?_, ?_⟩
  · intro h hh hne
    simp [normalize_element_content, hh, hne]
  · intro h0 hne hhtml
    simp only [normalize_element_content, h0]
    simp [hne, hhtml]
  · intro h0 hdisj
    simp only [normalize_element_content, h0]
    rcases hdisj with hd | hd
    · simp [hd]
    · simp [hd]

/-- Witness for claim C4: the HTML-shaped plain-text branch at a concrete element. -/
theorem claimC4_witness :
    normalize_element_content simpleSoup rawHtml =
      (pyStrip (simpleSoup.innerText (pyStrip rawHtml.text)),
       pyStrip (simpleSoup.innerText (pyStrip rawHtml.text))) :=
  (claimC4 simpleSoup rawHtml).2.1 (by decide) (by decide) (by decide)

/-- Raw element with the heading category the claim's list omits. -/
def rawHeadingSH : RawElement := ⟨"Hello", "SectionHeading", none, none⟩

/-- Raw narrative element following the heading. -/
def rawPara : RawElement := ⟨"World", "NarrativeText", none, none⟩

/-- Counterexample to claim C5 as stated: an element of category "SectionHeading"
updates the running section (both it and the following element are stamped
"Hello"), yet "SectionHeading" is not in the five-name set the claim enumerates,
so the update does not happen exactly when the category is in that set. -/
theorem claimC5_counterexample :
    (normalizeElements trivialSoup [rawHeadingSH, rawPara] "").map NormalizedElement.«section» =
      ["Hello", "Hello"]
    ∧ pyStrip rawHeadingSH.category = "SectionHeading"
    ∧ ("SectionHeading" ∉ specHeadingCategories)
    ∧ ("SectionHeading" ∈ HEADER_CATEGORIES) :=
  ⟨by decide, by decide, by decide, by decide⟩

/-- Claim C5 (amended): the running section starts empty and every normalized
element, the heading itself included, is stamped with the section after the
potential update; the update happens exactly when the element's category is in
the source's heading-like set, which also contains "SectionHeading" in addition
to the five categories the claim lists. -/
theorem claimC5 (sm : SoupModel) (elements : List RawElement) :
    (∀ x : NormalizedElement, (normalizeElements sm elements "")[0]? = some x →
      x.«section» =
        (if x.category ∈ HEADER_CATEGORIES then pyFirstLine x.display_text else ""))
    ∧ (∀ (i : Nat) (x y : NormalizedElement),
        (normalizeElements sm elements "")[i]? = some x →
        (normalizeElements sm elements "")[i + 1]? = some y →
        y.«section» =
          (if y.category ∈ HEADER_CATEGORIES then pyFirstLine y.display_text
           else x.«section»)) :=
  normalizeElements_sectionSpec sm elements ""

/-- Witness for claim C5: the heading element names itself as its own section. -/
theorem claimC5_witness :
    (⟨"Hello", "Hello", "SectionHeading", "Hello", none⟩ : NormalizedElement).«section» =
      (if (⟨"Hello", "Hello", "SectionHeading", "Hello", none⟩ : NormalizedElement).category ∈
          HEADER_CATEGORIES
       then pyFirstLine
          (⟨"Hello", "Hello", "SectionHeading", "Hello", none⟩ : NormalizedElement).display_text
       else "") :=
  (claimC5 trivialSoup [rawHeadingSH]).1 _ (by decide)

/-- Claim C9: when every element normalizes to an empty display text — in
particular for the empty element list — the chunker returns the empty chunk
list: no chunk without elements is ever emitted. -/
theorem claimC9 (sm : SoupModel) (tc : String → Nat) (B : Nat) (r : ℚ)
    (elements : List RawElement)
    (h : ∀ e ∈ elements, (normalize_element_content sm e).1 = "") :
    semantic_chunk_elements sm tc elements B r = [] := by
  have hlen : (normalizeElements sm elements "").length = 0 := by
    rw [normalizeElements_count]
    refine List.countP_eq_zero.mpr ?_
    intro e he
    simpa using h e he
  have hnil : normalizeElements sm elements "" = [] := List.length_eq_zero.mp hlen
  simp [semantic_chunk_elements, chunksOfNormalized, hnil, buildWindows]

/-- Raw element whose text is whitespace only. -/
def rawBlank : RawElement := ⟨"   ", "", none, none⟩

/-- Witness for claim C9: a document of one whitespace-only element produces no
chunks. -/
theorem claimC9_witness : semantic_chunk_elements trivialSoup tcLen [rawBlank] 7 ((1:ℚ)/4) = [] :=
  claimC9 trivialSoup tcLen 7 ((1:ℚ)/4) [rawBlank] (by decide)

/-- Claim C8 (spec-modelled): the chunk-family resolver looks up index `k-1`
exactly when `k > 0` and index `k+1` exactly when `k+1 < total`, and merges in
strictly ascending index order: with both neighbors present at an interior index
it returns exactly the three chunks `k-1, k, k+1`; at `k = 0` or `k = total-1`
with the single neighbor present it returns exactly two. -/
theorem claimC8 (store : List StoredChunk) (p : StoredChunk) (total : Nat) :
    (0 < p.chunk_index → p.chunk_index + 1 < total →
      lookupChunk store p.file_name (p.chunk_index - 1) ≠ [] →
      lookupChunk store p.file_name (p.chunk_index + 1) ≠ [] →
      (combine_chunk_family store p total).2.map StoredChunk.chunk_index =
        [p.chunk_index - 1, p.chunk_index, p.chunk_index + 1])
    ∧ (p.chunk_index = 0 → 1 < total → lookupChunk store p.file_name 1 ≠ [] →
      (combine_chunk_family store p total).2.map StoredChunk.chunk_index = [0, 1])
    ∧ (p.chunk_index + 1 = total → 0 < p.chunk_index →
      lookupChunk store p.file_name (p.chunk_index - 1) ≠ [] →
      (combine_chunk_family store p total).2.map StoredChunk.chunk_index =
        [p.chunk_index - 1, p.chunk_index]) := by
  refine ⟨?_, ?_, ?_⟩
  · intro h0 h1 h2 h3
    obtain ⟨cp, hcp, hcpm⟩ := head?_of_ne_nil _ h2
    obtain ⟨cn, hcn, hcnm⟩ := head?_of_ne_nil _ h3
    simp only [combine_chunk_family]
    rw [if_pos h0, if_pos h1, hcp, hcn]
    simp [lookupChunk_mem store p.file_name (p.chunk_index - 1) cp hcpm,
      lookupChunk_mem store p.file_name (p.chunk_index + 1) cn hcnm]
  · intro h0 h1 h2
    simp only [combine_chunk_family, h0]
    rw [if_neg (by omega), if_pos (by omega)]
    have h2' : lookupChunk store p.file_name (0 + 1) ≠ [] := by simpa using h2
    obtain ⟨cn, hcn, hcnm⟩ := head?_of_ne_nil _ h2'
    rw [hcn]
    have := lookupChunk_mem store p.file_name (0 + 1) cn hcnm
    simp [this, h0]
  · intro h0 h1 h2
    obtain ⟨cp, hcp, hcpm⟩ := head?_of_ne_nil _ h2
    simp only [combine_chunk_family]
    rw [if_pos h1, if_neg (by omega), hcp]
    simp [lookupChunk_mem store p.file_name (p.chunk_index - 1) cp hcpm]

/-- Concrete three-chunk store for the C8 witness. -/
def storeC8 : List StoredChunk := [⟨"f", 0, "c0"⟩, ⟨"f", 1, "c1"⟩, ⟨"f", 2, "c2"⟩]

/-- Witness for claim C8: interior primary chunk with both neighbors present
yields the family ordered 0, 1, 2. -/
theorem claimC8_witness :
    (combine_chunk_family storeC8 ⟨"f", 1, "c1"⟩ 3).2.map StoredChunk.chunk_index = [0, 1, 2] :=
  (claimC8 storeC8 ⟨"f", 1, "c1"⟩ 3).1 (by decide) (by decide) (by decide) (by decide)
